import Mathlib

/-!
Verification development for the pypkarr repository.

Bytes are modelled as `List Nat` with entries below 256 (Python `bytes`).
Pure functions of the source are translated directly; the external
collaborators named by the spec (the Ed25519 provider, the DNS wire codec,
the UDP transport) are modelled, each marked by a doc comment.
Python exceptions are modelled by `Except PyErr`.
-/

/-- Python exceptions and pkarr error classes raised by the translated code. -/
inductive PyErr where
  /-- AttributeError: `PkarrClient.lookup` reads `self.cache`, never set by `__init__`. -/
  | attributeNoCache
  /-- AttributeError: the placeholder `PublicKey` dataclass in signed_packet.py has no `verify`. -/
  | attributeNoVerify
  /-- NameError: `DEFAULT_MINIMUM_TTL` / `DEFAULT_MAXIMUM_TTL` are not defined in client.py. -/
  | nameUndefinedTTL
  /-- TypeError: wrong-arity call or calling a non-callable attribute. -/
  | typeErrorCall
  /-- KeyError from `alphabet_map[char]` on a character outside the z-base-32 alphabet. -/
  | keyErrorChar
  /-- PublicKeyError raised by the canonical `PublicKey` constructor. -/
  | publicKeyError
  /-- KeypairError: secret key is not 32 bytes. -/
  | keypairError
  /-- ValueError("Invalid SignedPacket bytes length") from `SignedPacket.from_bytes`. -/
  | invalidLengthErr
  /-- ValueError("Packet too large") from `SignedPacket.from_bytes` / `from_packet`. -/
  | tooLargeErr
  /-- A non-PkarrError exception raised by the per-node request step of `lookup`. -/
  | requestRaised
deriving DecidableEq, Repr

/-- ASCII bytes of a string, as Python `str.encode()` on ASCII text. -/
def strBytes (s : String) : List Nat := s.data.map Char.toNat

/-- Big-endian encoding of `n` on `w` bytes, as Python `int.to_bytes(w, 'big')`. -/
def natToBytesBE (w n : Nat) : List Nat :=
  (List.range w).map (fun i => n / 256 ^ (w - 1 - i) % 256)

/-- Big-endian decoding, as Python `int.from_bytes(data, 'big')`. -/
def bytesToNatBE (data : List Nat) : Nat :=
  data.foldl (fun a b => a * 256 + b) 0

/-- Modelled from the spec: the external Ed25519 provider's signing primitive
(`ed25519.SigningKey.sign`), consumed as a deterministic signer producing a
64-byte signature from a secret key and a message. -/
def Crypto.modelSign (sk msg : List Nat) : List Nat :=
  (List.range 64).map (fun i => (sk.sum + msg.sum + msg.length + i) % 256)

/-- Modelled from the spec: the external Ed25519 provider's verification
(`Crypto.verify`), returning true exactly on the signature that
`Crypto.modelSign` produces for the key behind `pk`. -/
def Crypto.verify (pk msg sig : List Nat) : Bool :=
  decide (sig = Crypto.modelSign pk msg)

/-- Modelled from the spec: the external Ed25519 derivation of a verifying key
from a 32-byte secret (`Crypto.derive_public_key`); deterministic and
32 bytes long.  The model takes the raw seed itself as the verifying key. -/
def Crypto.derive_public_key (sk : List Nat) : List Nat := sk

/-- The z-base-32 alphabet of crypto.py. -/
def z32Alphabet : String := "ybndrfg8ejkmcpqxot1uwisza345h769"

/-- The inner `while bits >= 5` loop of `Crypto.z_base_32_encode`: repeatedly
take the top five pending bits (`(value >> bits) & 31` after `bits -= 5`). -/
def emit5 (value bits : Nat) : List Nat :=
  if 5 ≤ bits then (value / 2 ^ (bits - 5)) % 32 :: emit5 value (bits - 5) else []
termination_by bits
decreasing_by omega

/-- The `for byte in data` loop of `Crypto.z_base_32_encode`.  Each byte is
shifted in (`(value << 8) | byte`, written arithmetically since bytes are
below 256), the while-loop drains down to `(bits + 8) % 5` pending bits, and
the final partial group is padded (`(value << (5 - bits)) & 31`). -/
def z32EncodeLoop : List Nat → Nat → Nat → List Nat
  | [], value, bits => if 0 < bits then [(value * 2 ^ (5 - bits)) % 32] else []
  | b :: rest, value, bits =>
      emit5 (value * 256 + b) (bits + 8) ++
        z32EncodeLoop rest (value * 256 + b) ((bits + 8) % 5)

/-- Character of the alphabet at a digit index (`alphabet[d]`). -/
def z32CharOf (d : Nat) : Char := z32Alphabet.data.getD d 'y'

/-- `Crypto.z_base_32_encode` of crypto.py. -/
def Crypto.z_base_32_encode (data : List Nat) : String :=
  String.mk ((z32EncodeLoop data 0 0).map z32CharOf)

/-- `alphabet_map[char]`: index of a character in the alphabet, `none`
standing for the KeyError raised on a character outside it. -/
def z32IndexOf (c : Char) : Option Nat :=
  z32Alphabet.data.findIdx? (fun x => x == c)

/-- The digit sequence of an encoded string, `none` if any character is
outside the alphabet (KeyError). -/
def z32DecodeDigits (s : String) : Option (List Nat) :=
  s.data.mapM z32IndexOf

/-- The `for char in encoded` loop of `Crypto.z_base_32_decode`: shift five
bits in, and emit a byte (`(value >> bits) & 255` after `bits -= 8`) whenever
eight bits are pending. -/
def z32DecodeLoop : List Nat → Nat → Nat → List Nat
  | [], _, _ => []
  | d :: rest, value, bits =>
      let v := value * 32 + d
      let b := bits + 5
      if 8 ≤ b then (v / 2 ^ (b - 8)) % 256 :: z32DecodeLoop rest v (b - 8)
      else z32DecodeLoop rest v b

/-- `Crypto.z_base_32_decode` of crypto.py. -/
def Crypto.z_base_32_decode (s : String) : Option (List Nat) :=
  (z32DecodeDigits s).map (fun ds => z32DecodeLoop ds 0 0)

/-- The key material accepted by the canonical `PublicKey.__init__` of
public_key.py: a z-base-32 string or raw bytes. -/
inductive KeyMaterial where
  | str (s : String)
  | bytes (b : List Nat)

/-- `PublicKey.__init__` of public_key.py.  The string branch stores whatever
`Crypto.z_base_32_decode` returns, with no length check; a character outside
the alphabet raises KeyError (the `except ValueError` clause does not catch
it).  The bytes branch requires exactly 32 bytes. -/
def publicKeyInit : KeyMaterial → Except PyErr (List Nat)
  | .str s =>
      match Crypto.z_base_32_decode s with
      | some b => .ok b
      | none => .error .keyErrorChar
  | .bytes b =>
      if b.length = 32 then .ok b else .error .publicKeyError

/-- `PublicKey.to_z32` of public_key.py. -/
def PublicKey.to_z32 (key : List Nat) : String := Crypto.z_base_32_encode key

/-- A keypair of keypair.py; its constructor guarantees a 32-byte secret, so
the invariant is carried in the structure. -/
structure Keypair where
  secretKey : List Nat
  len32 : secretKey.length = 32

/-- `Keypair.sign` of keypair.py (`Crypto.sign`; its 32-byte check passes by
the structure invariant). -/
def Keypair.sign (kp : Keypair) (msg : List Nat) : List Nat :=
  Crypto.modelSign kp.secretKey msg

/-- The `public_key` attribute of keypair.py: `PublicKey(Crypto.derive_public_key(secret))`. -/
def Keypair.publicKeyBytes (kp : Keypair) : List Nat :=
  Crypto.derive_public_key kp.secretKey

/-- A resource record of resource_record.py.  `__post_init__` lower-cases the
name and upper-cases class and type; the IPv4/IPv6 parsing of `A`/`AAAA`
rdata is external (`ipaddress`) and the rdata is kept textual here. -/
structure ResourceRecord where
  name : String
  rclass : String
  ttl : Nat
  rtype : String
  rdata : String
deriving DecidableEq, Repr

/-- Character-wise lower-casing (Python `str.lower` on ASCII text). -/
def strLower (s : String) : String := String.mk (s.data.map Char.toLower)

/-- Character-wise upper-casing (Python `str.upper` on ASCII text). -/
def strUpper (s : String) : String := String.mk (s.data.map Char.toUpper)

/-- The `__post_init__` normalization of resource_record.py. -/
def mkResourceRecord (name rclass : String) (ttl : Nat) (rtype rdata : String) : ResourceRecord :=
  { name := strLower name, rclass := strUpper rclass, ttl := ttl
    rtype := strUpper rtype, rdata := rdata }

/-- A DNS packet of packet.py (answers plus header fields, with the dataclass
defaults). -/
structure Packet where
  answers : List ResourceRecord := []
  id : Nat := 0
  qr : Bool := true
  opcode : Nat := 0
  aa : Bool := true
  tc : Bool := false
  rd : Bool := false
  ra : Bool := false
  z : Nat := 0
  rcode : Nat := 0
deriving DecidableEq, Repr

/-- The header flag word computed by `Packet.build_bytes_vec_compressed`
of packet.py (shift-or of the masked fields, written additively since the
bit ranges are disjoint). -/
def encodeFlags (p : Packet) : Nat :=
  (if p.qr then 2 ^ 15 else 0) + p.opcode % 16 * 2 ^ 11 +
    (if p.aa then 2 ^ 10 else 0) + (if p.tc then 2 ^ 9 else 0) +
    (if p.rd then 2 ^ 8 else 0) + (if p.ra then 2 ^ 7 else 0) +
    p.z % 8 * 2 ^ 4 + p.rcode % 16

/-- Modelled from the spec: the per-record part of the external DNS wire
codec (`dnspython` rdata serialization), consumed as a deterministic byte
encoding of one answer record. -/
def encodeResourceRecord (rr : ResourceRecord) : List Nat :=
  strBytes rr.name ++ [0] ++ strBytes rr.rtype ++ [0] ++ strBytes rr.rclass ++ [0] ++
    natToBytesBE 4 rr.ttl ++ [rr.rdata.length % 256] ++ strBytes rr.rdata

/-- Modelled from the spec: `Packet.build_bytes_vec_compressed` — a
DNS-message-shaped byte stream, 12-byte header (id, the flag word of
`encodeFlags`, section counts) followed by the answer records; the wire
details belong to the external codec (`dnspython Message.to_wire`). -/
def encodePacket (p : Packet) : List Nat :=
  natToBytesBE 2 p.id ++ natToBytesBE 2 (encodeFlags p) ++
    natToBytesBE 2 0 ++ natToBytesBE 2 p.answers.length ++
    natToBytesBE 2 0 ++ natToBytesBE 2 0 ++
    (p.answers.map encodeResourceRecord).flatten

/-- A signed packet, the dataclass of signed_packet.py. -/
structure SignedPacket where
  public_key : List Nat
  signature : List Nat
  timestamp : Nat
  packet : Packet
  last_seen : Nat
deriving DecidableEq, Repr

/-- `SignedPacket.signable` of signed_packet.py:
`f"3:seqi{timestamp}e1:v{len(v)}:".encode() + v`. -/
def SignedPacket.signable (timestamp : Nat) (v : List Nat) : List Nat :=
  strBytes ("3:seqi" ++ toString timestamp ++ "e1:v" ++ toString v.length ++ ":") ++ v

/-- The signature computed at line `signature = keypair.sign(cls.signable(timestamp, encoded_packet))`
of `SignedPacket.from_packet`. -/
def fromPacketSignature (timestamp : Nat) (kp : Keypair) (p : Packet) : List Nat :=
  kp.sign (SignedPacket.signable timestamp (encodePacket p))

/-- `SignedPacket.from_packet` of signed_packet.py, with `timestamp` the
current microsecond clock value.  After the oversize check and the signing
step, the constructor call evaluates `keypair.public_key()`; `public_key` is
an attribute of keypair.py, not a method, so the call raises TypeError and
`from_packet` never returns a SignedPacket. -/
def SignedPacket.from_packet (timestamp : Nat) (kp : Keypair) (p : Packet) :
    Except PyErr SignedPacket :=
  let encoded_packet := encodePacket p
  if 1000 < encoded_packet.length then .error .tooLargeErr
  else
    let _signature := fromPacketSignature timestamp kp p
    .error .typeErrorCall

/-- `SignedPacket.from_bytes` of signed_packet.py, with `now` the clock value
that would stamp `last_seen`.  After the two length checks the code builds
the module-local placeholder `PublicKey(data[:32])` and calls
`public_key.verify(...)`; that dataclass defines no `verify` method, so the
attribute lookup raises AttributeError before the signable payload is even
computed, and no buffer is ever accepted. -/
def SignedPacket.from_bytes (_now : Nat) (data : List Nat) : Except PyErr SignedPacket :=
  if data.length < 104 then .error .invalidLengthErr
  else if 1104 < data.length then .error .tooLargeErr
  else
    let _public_key := data.take 32
    let _signature := (data.drop 32).take 64
    let _timestamp := bytesToNatBE ((data.drop 96).take 8)
    let _encoded_packet := data.drop 104
    .error .attributeNoVerify

/-- `SignedPacket.as_bytes` of signed_packet.py. -/
def SignedPacket.as_bytes (sp : SignedPacket) : List Nat :=
  sp.public_key ++ sp.signature ++ natToBytesBE 8 sp.timestamp ++ encodePacket sp.packet

/-- The minimum of the record TTLs, `min(rr.ttl for rr in answers)` over a
non-empty answer list. -/
def recordsMinTtl (a : ResourceRecord) (rest : List ResourceRecord) : Nat :=
  rest.foldl (fun m rr => Nat.min m rr.ttl) a.ttl

/-- `SignedPacket.ttl` of signed_packet.py. -/
def SignedPacket.ttl (sp : SignedPacket) (min_ttl max_ttl : Nat) : Nat :=
  match sp.packet.answers with
  | [] => min_ttl
  | a :: rest => Nat.max min_ttl (Nat.min max_ttl (recordsMinTtl a rest))

/-- The observable outcomes of `await self._request_packet(node, target_key)`
in the traversal loop of `PkarrClient.lookup`: a SignedPacket, a node list,
`None`, a raised PkarrError, or a raised non-PkarrError exception.  The
request itself is UDP I/O, so it is supplied as an environment; note that in
client.py as written every such call in fact raises TypeError, because
`_request_packet` requires a `record_type` argument that `lookup` never
passes. -/
inductive ReqOutcome where
  | packet (sp : SignedPacket)
  | nodes (ns : List String)
  | noInfo
  | raisesPkarr
  | raisesOther

/-- The environment of one `lookup` call: the per-node request outcome, the
arbitrary element order of `set.pop`, and the wall-clock deadline test
`(time.time() - start_time) < timeout` at each iteration. -/
structure LookupEnv where
  req : String → ReqOutcome
  sel : Nat → Nat
  timedOut : Nat → Bool

/-- `new_nodes = set(result) - queried_nodes; nodes_to_query.update(new_nodes)`:
set semantics on the dup-free list representation. -/
def addNewNodes (frontier queried ns : List String) : List String :=
  frontier ++ ns.dedup.filter (fun n => decide (n ∉ queried ∧ n ∉ frontier))

/-- The `while nodes_to_query and attempts < max_attempts and ... < timeout`
loop of `PkarrClient.lookup`.  Returns the loop's outcome together with the
ordered list of queried nodes (`queried_nodes`, with the query order kept).
A found SignedPacket leads to the cache write
`self.cache[public_key] = (result, time.time() + result.ttl(DEFAULT_MINIMUM_TTL, DEFAULT_MAXIMUM_TTL))`,
which raises NameError: neither constant is defined or imported in client.py.
A raised PkarrError is caught (`except PkarrError`) and the loop continues;
any other exception propagates out of `lookup`. -/
def lookupLoop (env : LookupEnv) (maxAttempts : Nat) :
    List String → List String → Nat → Except PyErr (Option SignedPacket) × List String
  | frontier, queried, attempts =>
    if _h : frontier ≠ [] ∧ attempts < maxAttempts ∧ env.timedOut attempts = false then
      let idx := env.sel attempts % frontier.length
      let node := frontier.getD idx ""
      let frontier' := frontier.eraseIdx idx
      let queried' := queried ++ [node]
      match env.req node with
      | .packet _ => (.error .nameUndefinedTTL, queried')
      | .nodes ns =>
          if ns.isEmpty then lookupLoop env maxAttempts frontier' queried' (attempts + 1)
          else lookupLoop env maxAttempts (addNewNodes frontier' queried' ns) queried' (attempts + 1)
      | .noInfo => lookupLoop env maxAttempts frontier' queried' (attempts + 1)
      | .raisesPkarr => lookupLoop env maxAttempts frontier' queried' (attempts + 1)
      | .raisesOther => (.error .requestRaised, queried')
    else (.ok none, queried)
termination_by _ _ attempts => maxAttempts - attempts
decreasing_by all_goals omega

/-- The state of a `PkarrClient`.  `__init__` of client.py sets the keypair,
the bootstrap nodes and `known_nodes`, and never sets `self.cache`; the
missing attribute is the `none` state. -/
structure ClientState where
  bootstrapNodes : List String
  knownNodes : List String
  cache : Option (List (String × SignedPacket × Nat))

/-- `PkarrClient.__init__` of client.py. -/
def pkarrClientInit (bootstrap : List String) : ClientState :=
  { bootstrapNodes := bootstrap, knownNodes := bootstrap.dedup, cache := none }

/-- `PkarrClient.lookup` of client.py, with `now` the clock at the cache
check.  It builds the target key (`PublicKey(public_key)`), reads
`self.cache.get(public_key, (None, 0))` — an AttributeError when the cache
attribute was never created —, returns a fresh cached packet, and otherwise
runs the traversal loop on `set(self.bootstrap_nodes)`. -/
def PkarrClient.lookup (st : ClientState) (env : LookupEnv) (public_key : String)
    (maxAttempts : Nat) (now : Nat) : Except PyErr (Option SignedPacket) :=
  match publicKeyInit (.str public_key) with
  | .error e => .error e
  | .ok _target_key =>
    match st.cache with
    | none => .error .attributeNoCache
    | some cache =>
      match cache.lookup public_key with
      | some (sp, expiration) =>
          if now < expiration then .ok (some sp)
          else (lookupLoop env maxAttempts st.bootstrapNodes.dedup [] 0).1
      | none => (lookupLoop env maxAttempts st.bootstrapNodes.dedup [] 0).1

/-- `PkarrClient._connect_to_peers` of client.py.  For each peer value the
stub tries `return SignedPacket(target_key, b"dummy_signature", Packet())`;
that call passes 3 arguments to a 5-field dataclass and raises TypeError,
which the surrounding `except Exception` catches before moving to the next
peer, so the function always falls through to `return None`. -/
def connectToPeers (peer_values : List (List Nat)) (target_key : List Nat) :
    Option SignedPacket :=
  match peer_values with
  | [] => none
  | _pv :: rest => connectToPeers rest target_key

/-- A concrete keypair: the all-zero 32-byte secret. -/
def kpZero : Keypair := ⟨List.replicate 32 0, by decide⟩

/-- A concrete packet carrying one TXT answer record. -/
def pktOneRecord : Packet :=
  { answers := [mkResourceRecord "a" "IN" 7 "TXT" "hello"] }

/-- A concrete signed packet (direct dataclass construction, which Python
allows without any check). -/
def spDummy : SignedPacket :=
  { public_key := List.replicate 32 0, signature := List.replicate 64 0
    timestamp := 0, packet := {}, last_seen := 0 }

/-- A concrete signed packet whose answer records have TTLs 10, 50 and 7. -/
def spThreeRecords : SignedPacket :=
  { spDummy with packet :=
      { answers := [mkResourceRecord "a" "IN" 10 "TXT" "x",
                    mkResourceRecord "b" "IN" 50 "TXT" "y",
                    mkResourceRecord "c" "IN" 7 "TXT" "z"] } }

/-- An environment in which every node reply carries no information. -/
def envNoInfo : LookupEnv := ⟨fun _ => .noInfo, fun _ => 0, fun _ => false⟩

/-- An environment in which the first contacted node yields a SignedPacket. -/
def envPacket : LookupEnv := ⟨fun _ => .packet spDummy, fun _ => 0, fun _ => false⟩

/-- An environment in which contacting a node raises a non-PkarrError
exception — as every actual call of `_request_packet` from `lookup` does
(TypeError: missing `record_type` argument). -/
def envRaise : LookupEnv := ⟨fun _ => .raisesOther, fun _ => 0, fun _ => false⟩

/-- Base-32 place-value reading of a digit list onto an accumulator: the
number held in `value` by either codec loop after consuming the digits. -/
def digitsAcc (value : Nat) (ds : List Nat) : Nat :=
  ds.foldl (fun a d => a * 32 + d) value

/-- Base-256 place-value reading of a byte list onto an accumulator. -/
def bytesAcc (value : Nat) (bs : List Nat) : Nat :=
  bs.foldl (fun a b => a * 256 + b) value

/-- Reading a bit stream (a number together with its bit length) as bytes:
peel eight-bit chunks from the top, discarding a final partial chunk — the
reference semantics of the decode loop. -/
def chunk8 (value bits : Nat) : List Nat :=
  if 8 ≤ bits then value / 2 ^ (bits - 8) % 256 :: chunk8 value (bits - 8) else []
termination_by bits
decreasing_by omega

/-- Zero bits appended by the final padded group of the encoder when the
stream holds `t` bits. -/
def padOf (t : Nat) : Nat := (5 - t % 5) % 5



theorem accFold_split (B v : Nat) (ds : List Nat) :
    ds.foldl (fun a d => a * B + d) v =
      v * B ^ ds.length + ds.foldl (fun a d => a * B + d) 0 := by
  induction ds generalizing v with
  | nil => simp
  | cons d ds ih =>
    simp only [List.foldl_cons, List.length_cons]
    rw [ih (v * B + d), ih (0 * B + d)]
    ring

theorem accFold_lt (B : Nat) (ds : List Nat) (h : ∀ d ∈ ds, d < B) :
    ds.foldl (fun a d => a * B + d) 0 < B ^ ds.length := by
  induction ds with
  | nil => simp
  | cons d ds ih =>
    simp only [List.foldl_cons, List.length_cons]
    rw [accFold_split]
    have hd : d < B := h d (List.mem_cons_self d ds)
    have hds : ds.foldl (fun a d => a * B + d) 0 < B ^ ds.length :=
      ih (fun x hx => h x (List.mem_cons_of_mem d hx))
    calc (0 * B + d) * B ^ ds.length + ds.foldl (fun a d => a * B + d) 0
        < (0 * B + d) * B ^ ds.length + B ^ ds.length := by omega
      _ = (d + 1) * B ^ ds.length := by ring
      _ ≤ B * B ^ ds.length := by
          exact Nat.mul_le_mul_right _ (by omega)
      _ = B ^ (ds.length + 1) := by ring

theorem digitsAcc_split (v : Nat) (ds : List Nat) :
    digitsAcc v ds = v * 32 ^ ds.length + digitsAcc 0 ds := accFold_split 32 v ds

theorem digitsAcc_lt (ds : List Nat) (h : ∀ d ∈ ds, d < 32) :
    digitsAcc 0 ds < 32 ^ ds.length := accFold_lt 32 ds h

theorem bytesAcc_split (v : Nat) (bs : List Nat) :
    bytesAcc v bs = v * 256 ^ bs.length + bytesAcc 0 bs := accFold_split 256 v bs

theorem bytesAcc_lt (bs : List Nat) (h : ∀ b ∈ bs, b < 256) :
    bytesAcc 0 bs < 256 ^ bs.length := accFold_lt 256 bs h

theorem chunk8_of_lt {v bits : Nat} (h : bits < 8) : chunk8 v bits = [] := by
  rw [chunk8]
  simp [Nat.not_le.mpr h]

theorem chunk8_peel {v bits : Nat} (h : 8 ≤ bits) :
    chunk8 v bits = v / 2 ^ (bits - 8) % 256 :: chunk8 v (bits - 8) := by
  rw [chunk8]
  simp [h]

theorem chunk8_add_mul (bits : Nat) : ∀ x k, chunk8 (x + k * 2 ^ bits) bits = chunk8 x bits := by
  induction bits using Nat.strong_induction_on with
  | _ bits ih =>
    intro x k
    by_cases h : 8 ≤ bits
    · have e : (2 : Nat) ^ bits = 2 ^ 8 * 2 ^ (bits - 8) := by
        rw [← Nat.pow_add]
        congr 1
        omega
      have hsplit : x + k * 2 ^ bits = x + k * 2 ^ 8 * 2 ^ (bits - 8) := by
        rw [e]; ring
      rw [chunk8_peel h, chunk8_peel h]
      congr 1
      · rw [hsplit, Nat.add_mul_div_right _ _ (Nat.pos_pow_of_pos _ (by omega))]
        simp [Nat.add_mul_mod_self_right]
      · rw [hsplit, ih (bits - 8) (by omega) x (k * 2 ^ 8)]
    · rw [chunk8_of_lt (by omega), chunk8_of_lt (by omega)]

theorem z32DecodeLoop_eq_chunk8 :
    ∀ (ds : List Nat) (v bits : Nat), (∀ d ∈ ds, d < 32) → bits ≤ 7 →
      z32DecodeLoop ds v bits = chunk8 (digitsAcc v ds) (bits + 5 * ds.length) := by
  intro ds
  induction ds with
  | nil =>
    intro v bits _ hb
    simp only [z32DecodeLoop, List.length_nil, Nat.mul_zero, Nat.add_zero]
    rw [chunk8_of_lt (by omega)]
  | cons d rest ih =>
    intro v bits hd hb
    have hrest : ∀ x ∈ rest, x < 32 := fun x hx => hd x (List.mem_cons_of_mem d hx)
    have hacc : digitsAcc v (d :: rest) = digitsAcc (v * 32 + d) rest := rfl
    simp only [z32DecodeLoop, List.length_cons]
    by_cases h8 : 8 ≤ bits + 5
    · simp only [if_pos h8]
      have hB : 8 ≤ bits + 5 * (rest.length + 1) := by omega
      rw [hacc, chunk8_peel hB]
      have hsp : digitsAcc (v * 32 + d) rest =
          (v * 32 + d) * 32 ^ rest.length + digitsAcc 0 rest := digitsAcc_split _ _
      have hlt : digitsAcc 0 rest < 32 ^ rest.length := digitsAcc_lt rest hrest
      congr 1
      · have h32 : (32 : Nat) ^ rest.length = 2 ^ (5 * rest.length) := by
          rw [Nat.pow_mul]
        have hbits : bits + 5 * (rest.length + 1) - 8 = 5 * rest.length + (bits + 5 - 8) := by
          omega
        rw [hbits, Nat.pow_add, ← Nat.div_div_eq_div_mul]
        have hdiv : digitsAcc (v * 32 + d) rest / 2 ^ (5 * rest.length) = v * 32 + d := by
          rw [hsp, ← h32, Nat.mul_comm (v * 32 + d) (32 ^ rest.length),
            Nat.mul_add_div (by positivity), Nat.div_eq_of_lt hlt]
          omega
        rw [hdiv]
      · rw [ih (v * 32 + d) (bits + 5 - 8) hrest (by omega)]
        congr 1
        omega
    · simp only [if_neg h8]
      rw [ih (v * 32 + d) (bits + 5) hrest (by omega), hacc]
      congr 1
      omega

theorem mod_pow_split (n a b : Nat) :
    n % 2 ^ (a + b) = n / 2 ^ a % 2 ^ b * 2 ^ a + n % 2 ^ a := by
  conv_lhs => rw [Nat.pow_add, ← Nat.div_add_mod (n % (2 ^ a * 2 ^ b)) (2 ^ a)]
  rw [Nat.mod_mul_right_div_self, Nat.mod_mod_of_dvd _ (dvd_mul_right _ _)]
  ring

theorem emit5_spec : ∀ bits v,
    digitsAcc 0 (emit5 v bits) = v % 2 ^ bits / 2 ^ (bits % 5) ∧
      5 * (emit5 v bits).length = bits - bits % 5 := by
  intro bits
  induction bits using Nat.strong_induction_on with
  | _ bits ih =>
    intro v
    by_cases h : 5 ≤ bits
    · rw [emit5, if_pos h]
      obtain ⟨ihv, ihl⟩ := ih (bits - 5) (by omega) v
      have hr : (bits - 5) % 5 = bits % 5 := by omega
      constructor
      · have hacc : digitsAcc 0 (v / 2 ^ (bits - 5) % 32 :: emit5 v (bits - 5)) =
            v / 2 ^ (bits - 5) % 32 * 32 ^ (emit5 v (bits - 5)).length +
              digitsAcc 0 (emit5 v (bits - 5)) := by
          have e : digitsAcc 0 (v / 2 ^ (bits - 5) % 32 :: emit5 v (bits - 5)) =
              digitsAcc (v / 2 ^ (bits - 5) % 32) (emit5 v (bits - 5)) := by
            simp [digitsAcc]
          rw [e, digitsAcc_split]
        have h32 : (32 : Nat) ^ (emit5 v (bits - 5)).length = 2 ^ (bits - 5 - bits % 5) := by
          rw [show (32 : Nat) = 2 ^ 5 from by norm_num, ← Nat.pow_mul, ihl]
          congr 1
          omega
        have hsplit := mod_pow_split v (bits - 5) 5
        rw [show bits - 5 + 5 = bits from by omega] at hsplit
        rw [show (2 : Nat) ^ 5 = 32 from by norm_num] at hsplit
        rw [hacc, ihv, hr, h32, hsplit]
        generalize v / 2 ^ (bits - 5) % 32 = q
        generalize v % 2 ^ (bits - 5) = C
        rw [show (2 : Nat) ^ (bits - 5) = 2 ^ (bits % 5) * 2 ^ (bits - 5 - bits % 5) from by
          rw [← Nat.pow_add]; congr 1; omega]
        rw [show q * (2 ^ (bits % 5) * 2 ^ (bits - 5 - bits % 5)) + C =
            2 ^ (bits % 5) * (q * 2 ^ (bits - 5 - bits % 5)) + C from by ring]
        rw [Nat.mul_add_div (by positivity)]
      · simp only [List.length_cons]
        omega
    · rw [emit5, if_neg h]
      simp only [digitsAcc, List.foldl_nil, List.length_nil]
      have e : bits % 5 = bits := Nat.mod_eq_of_lt (by omega)
      rw [e]
      constructor
      · rw [Nat.div_eq_of_lt (Nat.mod_lt _ (by positivity))]
      · omega

theorem emit5_bound : ∀ bits v d, d ∈ emit5 v bits → d < 32 := by
  intro bits
  induction bits using Nat.strong_induction_on with
  | _ bits ih =>
    intro v d hd
    rw [emit5] at hd
    by_cases h : 5 ≤ bits
    · rw [if_pos h] at hd
      rcases List.mem_cons.mp hd with h1 | h1
      · subst h1
        exact Nat.mod_lt _ (by omega)
      · exact ih (bits - 5) (by omega) v d h1
    · rw [if_neg h] at hd
      simp at hd

theorem z32EncodeLoop_bound :
    ∀ (data : List Nat) (v bits d : Nat), d ∈ z32EncodeLoop data v bits → d < 32 := by
  intro data
  induction data with
  | nil =>
    intro v bits d hd
    simp only [z32EncodeLoop] at hd
    by_cases h : 0 < bits
    · rw [if_pos h] at hd
      simp at hd
      subst hd
      exact Nat.mod_lt _ (by omega)
    · rw [if_neg h] at hd
      simp at hd
  | cons b rest ih =>
    intro v bits d hd
    simp only [z32EncodeLoop] at hd
    rcases List.mem_append.mp hd with h1 | h1
    · exact emit5_bound _ _ _ h1
    · exact ih _ _ _ h1

theorem digitsAcc_append (xs ys : List Nat) :
    digitsAcc 0 (xs ++ ys) = digitsAcc 0 xs * 32 ^ ys.length + digitsAcc 0 ys := by
  have e : digitsAcc 0 (xs ++ ys) = digitsAcc (digitsAcc 0 xs) ys := by
    simp [digitsAcc, List.foldl_append]
  rw [e, digitsAcc_split]

theorem bytesAcc_cons (b : Nat) (rest : List Nat) :
    bytesAcc 0 (b :: rest) = b * 256 ^ rest.length + bytesAcc 0 rest := by
  have e : bytesAcc 0 (b :: rest) = bytesAcc b rest := by
    simp [bytesAcc]
  rw [e, ← bytesAcc_split]

theorem padOf_lt (t : Nat) : padOf t < 5 := by
  unfold padOf
  omega

theorem padOf_congr {s t : Nat} (h : s % 5 = t % 5) : padOf s = padOf t := by
  unfold padOf
  omega

theorem z32EncodeLoop_spec :
    ∀ (data : List Nat) (value bits : Nat), bits ≤ 4 → (∀ x ∈ data, x < 256) →
      digitsAcc 0 (z32EncodeLoop data value bits) =
        value % 2 ^ bits * 2 ^ (8 * data.length + padOf (bits + 8 * data.length)) +
          bytesAcc 0 data * 2 ^ padOf (bits + 8 * data.length) ∧
      5 * (z32EncodeLoop data value bits).length =
        bits + 8 * data.length + padOf (bits + 8 * data.length) := by
  intro data
  induction data with
  | nil =>
    intro value bits hb _
    simp only [z32EncodeLoop, List.length_nil, Nat.mul_zero, Nat.add_zero]
    by_cases h : 0 < bits
    · rw [if_pos h]
      have hpad : padOf bits = 5 - bits := by
        unfold padOf
        omega
      constructor
      · have e : digitsAcc 0 [value * 2 ^ (5 - bits) % 32] = value * 2 ^ (5 - bits) % 32 := by
          simp [digitsAcc]
        rw [e, hpad]
        have h32 : (32 : Nat) = 2 ^ bits * 2 ^ (5 - bits) := by
          rw [← Nat.pow_add, show bits + (5 - bits) = 5 from by omega]
        rw [h32, Nat.mul_mod_mul_right]
        simp [bytesAcc]
      · simp [hpad]
        omega
    · rw [if_neg h]
      have hz : bits = 0 := by omega
      subst hz
      simp [digitsAcc, bytesAcc, padOf, Nat.mod_one]
  | cons b rest ih =>
    intro value bits hb hx
    have hbb : b < 256 := hx b (List.mem_cons_self b rest)
    have hrest : ∀ x ∈ rest, x < 256 := fun x hxm => hx x (List.mem_cons_of_mem b hxm)
    obtain ⟨ihv, ihl⟩ := ih (value * 256 + b) ((bits + 8) % 5) (by omega) hrest
    obtain ⟨ev, el⟩ := emit5_spec (bits + 8) (value * 256 + b)
    simp only [z32EncodeLoop, List.length_cons]
    have hpadeq : padOf (bits + 8 * (rest.length + 1)) =
        padOf ((bits + 8) % 5 + 8 * rest.length) := by
      apply padOf_congr
      omega
    set p := padOf ((bits + 8) % 5 + 8 * rest.length) with hp
    set r := (bits + 8) % 5 with hrdef
    -- the accumulated value after shifting in b, reduced mod the live bits
    have hw : (value * 256 + b) % 2 ^ (bits + 8) = value % 2 ^ bits * 2 ^ 8 + b := by
      have hsp := mod_pow_split (value * 256 + b) 8 bits
      rw [show (8 : Nat) + bits = bits + 8 from by omega] at hsp
      have hdiv : (value * 256 + b) / 2 ^ 8 = value := by
        rw [show (2 : Nat) ^ 8 = 256 from by norm_num,
          Nat.mul_comm value 256, Nat.mul_add_div (by omega), Nat.div_eq_of_lt hbb]
        omega
      have hmod : (value * 256 + b) % 2 ^ 8 = b := by
        rw [show (2 : Nat) ^ 8 = 256 from by norm_num, Nat.mul_comm value 256,
          Nat.mul_add_mod, Nat.mod_eq_of_lt hbb]
      rw [hsp, hdiv, hmod]
    have hvr : (value * 256 + b) % 2 ^ r = (value % 2 ^ bits * 2 ^ 8 + b) % 2 ^ r := by
      have hdvd : (2 : Nat) ^ r ∣ 2 ^ (bits + 8) :=
        Nat.pow_dvd_pow 2 (by omega)
      rw [← Nat.mod_mod_of_dvd _ hdvd, hw]
    constructor
    · rw [digitsAcc_append, ev, ihv, hpadeq]
      have h32L : (32 : Nat) ^ (z32EncodeLoop rest (value * 256 + b) r).length =
          2 ^ (r + 8 * rest.length + p) := by
        rw [show (32 : Nat) = 2 ^ 5 from by norm_num, ← Nat.pow_mul, ihl]
      rw [h32L, hw, hvr]
      generalize hgen : value % 2 ^ bits * 2 ^ 8 + b = w
      rw [bytesAcc_cons]
      have e1 : (2 : Nat) ^ (r + 8 * rest.length + p) = 2 ^ r * 2 ^ (8 * rest.length + p) := by
        rw [← Nat.pow_add]
        congr 1
        omega
      have e2 : (2 : Nat) ^ (8 * (rest.length + 1) + p) = 2 ^ 8 * 2 ^ (8 * rest.length + p) := by
        rw [← Nat.pow_add]
        congr 1
        omega
      have e3 : (256 : Nat) ^ rest.length = 2 ^ (8 * rest.length) := by
        rw [show (256 : Nat) = 2 ^ 8 from by norm_num, ← Nat.pow_mul]
      have e4 : (2 : Nat) ^ (8 * rest.length + p) = 2 ^ (8 * rest.length) * 2 ^ p := by
        rw [← Nat.pow_add]
      rw [e1]
      calc w / 2 ^ r * (2 ^ r * 2 ^ (8 * rest.length + p)) +
            (w % 2 ^ r * 2 ^ (8 * rest.length + p) + bytesAcc 0 rest * 2 ^ p)
          = (w / 2 ^ r * 2 ^ r + w % 2 ^ r) * 2 ^ (8 * rest.length + p) +
              bytesAcc 0 rest * 2 ^ p := by ring
        _ = w * 2 ^ (8 * rest.length + p) + bytesAcc 0 rest * 2 ^ p := by
              rw [Nat.div_add_mod']
        _ = _ := by
              rw [e2, e3, e4, ← hgen]
              ring
    · rw [List.length_append, hpadeq]
      omega

theorem chunk8_bytesAcc :
    ∀ (data : List Nat) (p : Nat), p ≤ 7 → (∀ x ∈ data, x < 256) →
      chunk8 (bytesAcc 0 data * 2 ^ p) (8 * data.length + p) = data := by
  intro data
  induction data with
  | nil =>
    intro p hp _
    simp only [List.length_nil, Nat.mul_zero, Nat.zero_add]
    rw [chunk8_of_lt (by omega)]
  | cons b rest ih =>
    intro p hp hx
    have hbb : b < 256 := hx b (List.mem_cons_self b rest)
    have hrest : ∀ x ∈ rest, x < 256 := fun x hxm => hx x (List.mem_cons_of_mem b hxm)
    have hlt : bytesAcc 0 rest < 256 ^ rest.length := bytesAcc_lt rest hrest
    simp only [List.length_cons]
    rw [chunk8_peel (by omega)]
    rw [bytesAcc_cons]
    have e3 : (256 : Nat) ^ rest.length = 2 ^ (8 * rest.length) := by
      rw [show (256 : Nat) = 2 ^ 8 from by norm_num, ← Nat.pow_mul]
    have hexp : 8 * (rest.length + 1) + p - 8 = 8 * rest.length + p := by omega
    congr 1
    · -- the peeled head byte is b
      rw [hexp]
      have e : (b * 256 ^ rest.length + bytesAcc 0 rest) * 2 ^ p =
          b * 2 ^ (8 * rest.length + p) + bytesAcc 0 rest * 2 ^ p := by
        rw [e3, Nat.pow_add]
        ring
      rw [e]
      have hsmall : bytesAcc 0 rest * 2 ^ p < 2 ^ (8 * rest.length + p) := by
        calc bytesAcc 0 rest * 2 ^ p < 256 ^ rest.length * 2 ^ p :=
              (Nat.mul_lt_mul_right (Nat.pos_pow_of_pos _ (by omega))).mpr hlt
          _ = 2 ^ (8 * rest.length + p) := by rw [e3, Nat.pow_add]
      rw [Nat.mul_comm b (2 ^ (8 * rest.length + p)), Nat.mul_add_div (by positivity),
        Nat.div_eq_of_lt hsmall, Nat.mod_eq_of_lt (by omega)]
      omega
    · -- the tail: drop the head byte (a multiple of the live bit width)
      rw [hexp]
      have e : (b * 256 ^ rest.length + bytesAcc 0 rest) * 2 ^ p =
          bytesAcc 0 rest * 2 ^ p + b * 2 ^ (8 * rest.length + p) := by
        rw [e3, Nat.pow_add]
        ring
      rw [e, chunk8_add_mul (8 * rest.length + p) (bytesAcc 0 rest * 2 ^ p) b]
      exact ih p hp hrest

theorem z32IndexOf_z32CharOf : ∀ d, d < 32 → z32IndexOf (z32CharOf d) = some d := by
  decide

theorem z32DecodeDigits_map (ds : List Nat) (h : ∀ d ∈ ds, d < 32) :
    z32DecodeDigits (String.mk (ds.map z32CharOf)) = some ds := by
  have e : (String.mk (ds.map z32CharOf)).data = ds.map z32CharOf := rfl
  unfold z32DecodeDigits
  rw [e]
  induction ds with
  | nil => rfl
  | cons d rest ih =>
    have hd : d < 32 := h d (List.mem_cons_self d rest)
    have hrest : ∀ x ∈ rest, x < 32 := fun x hx => h x (List.mem_cons_of_mem d hx)
    simp only [List.map_cons, List.mapM_cons, z32IndexOf_z32CharOf d hd,
      ih hrest]
    rfl

theorem z32_round_trip_general (b : List Nat) (hb : ∀ x ∈ b, x < 256) :
    Crypto.z_base_32_decode (Crypto.z_base_32_encode b) = some b := by
  unfold Crypto.z_base_32_encode Crypto.z_base_32_decode
  set ds := z32EncodeLoop b 0 0 with hds
  have hbound : ∀ d ∈ ds, d < 32 := fun d hd => z32EncodeLoop_bound b 0 0 d hd
  rw [z32DecodeDigits_map ds hbound]
  simp only [Option.map_some']
  congr 1
  obtain ⟨ev, el⟩ := z32EncodeLoop_spec b 0 0 (by omega) hb
  simp only [Nat.zero_add] at ev el
  rw [z32DecodeLoop_eq_chunk8 ds 0 0 hbound (by omega)]
  have hacc0 : digitsAcc 0 ds = bytesAcc 0 b * 2 ^ padOf (8 * b.length) := by
    rw [← hds] at ev
    rw [ev]
    simp
  have hlen : 0 + 5 * ds.length = 8 * b.length + padOf (8 * b.length) := by
    rw [← hds] at el
    omega
  rw [hacc0, hlen]
  exact chunk8_bytesAcc b _ (by have := padOf_lt (8 * b.length); omega) hb

theorem getD_mem (l : List String) (i : Nat) (h : i < l.length) : l.getD i "" ∈ l := by
  rw [List.getD_eq_getElem l "" h]
  exact List.getElem_mem h

theorem getD_not_mem_eraseIdx (l : List String) (i : Nat) (h : i < l.length) (hnd : l.Nodup) :
    l.getD i "" ∉ l.eraseIdx i := by
  induction l generalizing i with
  | nil => simp at h
  | cons a t ih =>
    cases i with
    | zero =>
      simp only [List.getD_cons_zero, List.eraseIdx_cons_zero]
      exact (List.nodup_cons.mp hnd).1
    | succ j =>
      simp only [List.getD_cons_succ, List.eraseIdx_cons_succ]
      have hj : j < t.length := by simpa using h
      intro hmem
      rcases List.mem_cons.mp hmem with h1 | h1
      · exact (List.nodup_cons.mp hnd).1 (h1 ▸ getD_mem t j hj)
      · exact ih j hj (List.nodup_cons.mp hnd).2 h1

theorem mem_of_mem_eraseIdx {l : List String} {i : Nat} {n : String}
    (h : n ∈ l.eraseIdx i) : n ∈ l :=
  (List.eraseIdx_sublist l i).subset h

theorem mem_addNewNodes {frontier queried ns : List String} {n : String}
    (h : n ∈ addNewNodes frontier queried ns) :
    n ∈ frontier ∨ (n ∉ queried ∧ n ∉ frontier) := by
  rcases List.mem_append.mp h with h1 | h1
  · exact Or.inl h1
  · right
    have := List.of_mem_filter h1
    exact of_decide_eq_true this

theorem addNewNodes_nodup {frontier queried ns : List String} (hf : frontier.Nodup) :
    (addNewNodes frontier queried ns).Nodup := by
  rw [addNewNodes, List.nodup_append]
  refine ⟨hf, List.Nodup.filter _ ns.nodup_dedup, ?_⟩
  intro n hn hmem
  have hmem2 := List.of_mem_filter hmem
  have := of_decide_eq_true hmem2
  exact this.2 hn

theorem lookupLoop_inv (env : LookupEnv) (maxA : Nat) :
    ∀ (k attempts : Nat) (frontier queried : List String),
      maxA - attempts ≤ k →
      attempts ≤ maxA →
      frontier.Nodup →
      queried.Nodup →
      (∀ n ∈ frontier, n ∉ queried) →
      queried.length = attempts →
      (lookupLoop env maxA frontier queried attempts).2.Nodup ∧
        (lookupLoop env maxA frontier queried attempts).2.length ≤ maxA := by
  intro k
  induction k with
  | zero =>
    intro attempts frontier queried hk hle hf hq hdis hlen
    rw [lookupLoop.eq_def]
    dsimp only
    have : ¬(frontier ≠ [] ∧ attempts < maxA ∧ env.timedOut attempts = false) := by
      intro hcon
      omega
    rw [dif_neg this]
    refine ⟨hq, ?_⟩
    show queried.length ≤ maxA
    omega
  | succ k ih =>
    intro attempts frontier queried hk hle hf hq hdis hlen
    rw [lookupLoop.eq_def]
    dsimp only
    by_cases hcond : frontier ≠ [] ∧ attempts < maxA ∧ env.timedOut attempts = false
    · rw [dif_pos hcond]
      have hpos : 0 < frontier.length := List.length_pos.mpr hcond.1
      set idx := env.sel attempts % frontier.length with hidx
      have hilt : idx < frontier.length := Nat.mod_lt _ hpos
      set node := frontier.getD idx "" with hnode
      have hnmem : node ∈ frontier := getD_mem frontier idx hilt
      have hnq : node ∉ queried := hdis node hnmem
      have hq' : (queried ++ [node]).Nodup := by
        rw [List.nodup_append]
        exact ⟨hq, List.nodup_singleton node, by simpa using hnq⟩
      have hlen' : (queried ++ [node]).length = attempts + 1 := by
        simp [hlen]
      have hf' : (frontier.eraseIdx idx).Nodup :=
        hf.sublist (List.eraseIdx_sublist frontier idx)
      have hnotin : node ∉ frontier.eraseIdx idx :=
        getD_not_mem_eraseIdx frontier idx hilt hf
      have hdis' : ∀ n ∈ frontier.eraseIdx idx, n ∉ queried ++ [node] := by
        intro n hn
        have hnf : n ∈ frontier := mem_of_mem_eraseIdx hn
        simp only [List.mem_append, List.mem_singleton]
        rintro (hc | hc)
        · exact hdis n hnf hc
        · exact hnotin (hc ▸ hn)
      cases hreq : env.req node with
      | packet sp =>
        refine ⟨hq', ?_⟩
        rw [hlen']
        omega
      | nodes ns =>
        by_cases hns : ns.isEmpty
        · simp only [hns, if_true]
          exact ih (attempts + 1) _ _ (by omega) (by omega) hf' hq' hdis' hlen'
        · simp only [hns, if_false, Bool.false_eq_true]
          refine ih (attempts + 1) _ _ (by omega) (by omega) (addNewNodes_nodup hf') hq' ?_ hlen'
          intro n hn
          rcases mem_addNewNodes hn with h1 | h1
          · exact hdis' n h1
          · exact h1.1
      | noInfo =>
        exact ih (attempts + 1) _ _ (by omega) (by omega) hf' hq' hdis' hlen'
      | raisesPkarr =>
        exact ih (attempts + 1) _ _ (by omega) (by omega) hf' hq' hdis' hlen'
      | raisesOther =>
        refine ⟨hq', ?_⟩
        rw [hlen']
        omega
    · rw [dif_neg hcond]
      refine ⟨hq, ?_⟩
      show queried.length ≤ maxA
      omega

/-- ASCII byte extraction distributes over string append. -/
theorem strBytes_append (a b : String) : strBytes (a ++ b) = strBytes a ++ strBytes b := by
  simp [strBytes]

/-- C1.  The claimed round trip
`verify_and_parse(sign(keypair, packet).to_bytes())` cannot even start:
evaluated at a concrete keypair and a one-record packet whose encoding is
well under 1000 bytes, `SignedPacket.from_packet` raises TypeError, because
it invokes `keypair.public_key()` although `public_key` is a non-callable
attribute of keypair.py.  (Were that fixed, `from_bytes` would still raise
AttributeError at its verification step, and its parse step is the stub
`Packet([])`, which discards every resource record.) -/
theorem c1_round_trip_sign_step_crashes :
    SignedPacket.from_packet 5 kpZero pktOneRecord = .error .typeErrorCall := by
  rfl

/-- C2.  The peer-resolution step of lookup never produces any verified
SignedPacket: `_connect_to_peers` only ever falls through to `None` (its
dummy `SignedPacket(target_key, b"dummy_signature", Packet())` construction
raises a caught TypeError), and the dummy 15-byte signature it names could
never verify against any key and message. -/
theorem c2_peer_step_never_verifies :
    (∀ (peer_values : List (List Nat)) (target_key : List Nat),
        connectToPeers peer_values target_key = none) ∧
    (∀ pk msg : List Nat, Crypto.verify pk msg (strBytes "dummy_signature") = false) := by
  constructor
  · intro pvs k
    induction pvs with
    | nil => rfl
    | cons p rest ih => simpa [connectToPeers] using ih
  · intro pk msg
    simp only [Crypto.verify, decide_eq_false_iff_not]
    intro h
    have h1 : (strBytes "dummy_signature").length = 15 := rfl
    have h2 : (Crypto.modelSign pk msg).length = 64 := by simp [Crypto.modelSign]
    rw [h, h2] at h1
    omega

/-- C3.  The caching described by the claim cannot occur: a client built by
`__init__` has no `cache` attribute, so every lookup raises AttributeError
at the cache read; and even with a cache dictionary present, a successful
traversal crashes with NameError at the cache write, because
`DEFAULT_MINIMUM_TTL` / `DEFAULT_MAXIMUM_TTL` are not defined in client.py. -/
theorem c3_cache_paths_crash :
    PkarrClient.lookup (pkarrClientInit ["router.example:6881"]) envNoInfo "yy" 100 0 =
        .error .attributeNoCache ∧
      PkarrClient.lookup { pkarrClientInit ["router.example:6881"] with cache := some [] }
        envPacket "yy" 100 0 = .error .nameUndefinedTTL := by
  constructor
  · rfl
  · have hdec : publicKeyInit (.str "yy") = .ok [0] := rfl
    simp only [PkarrClient.lookup, hdec, pkarrClientInit]
    rw [lookupLoop.eq_def]
    norm_num [envPacket]

/-- C4.  `SignedPacket.from_bytes` raises the invalid-length ValueError
exactly on inputs shorter than 104 bytes and the too-large ValueError
exactly on inputs longer than 1104 bytes; but an in-range buffer is never
accepted: the placeholder `PublicKey` dataclass of signed_packet.py has no
`verify` method, so the verification step raises AttributeError, refuting
the claimed acceptance of a valid 104-byte buffer. -/
theorem c4_from_bytes_length_errors (now : Nat) (data : List Nat) :
    (SignedPacket.from_bytes now data = .error .invalidLengthErr ↔ data.length < 104) ∧
    (SignedPacket.from_bytes now data = .error .tooLargeErr ↔ 1104 < data.length) ∧
    (104 ≤ data.length → data.length ≤ 1104 →
      SignedPacket.from_bytes now data = .error .attributeNoVerify) := by
  unfold SignedPacket.from_bytes
  refine ⟨?_, ?_, ?_⟩ <;> split <;> (try split) <;> (simp_all; try omega)

/-- Closed instances of `c4_from_bytes_length_errors`: a 103-byte buffer is
rejected as too short, a 1105-byte buffer as too large, and a 104-byte
buffer ends in the AttributeError instead of acceptance. -/
theorem c4_from_bytes_length_errors_witness :
    SignedPacket.from_bytes 0 (List.replicate 103 0) = .error .invalidLengthErr ∧
      SignedPacket.from_bytes 0 (List.replicate 1105 0) = .error .tooLargeErr ∧
      SignedPacket.from_bytes 0 (List.replicate 104 1) = .error .attributeNoVerify :=
  ⟨(c4_from_bytes_length_errors 0 (List.replicate 103 0)).1.mpr
      (by simp only [List.length_replicate]; omega),
   (c4_from_bytes_length_errors 0 (List.replicate 1105 0)).2.1.mpr
      (by simp only [List.length_replicate]; omega),
   (c4_from_bytes_length_errors 0 (List.replicate 104 1)).2.2
      (by simp only [List.length_replicate]; omega)
      (by simp only [List.length_replicate]; omega)⟩

/-- C5.  A per-node failure is not contained by the traversal loop: the loop
catches only `PkarrError`, while the request step raises a non-PkarrError
exception (in client.py as written, every call raises TypeError because
`lookup` omits the required `record_type` argument of `_request_packet`),
and that exception propagates out of `lookup`, shown here on a lookup whose
one bootstrap contact raises. -/
theorem c5_request_error_escapes :
    PkarrClient.lookup { pkarrClientInit ["router.example:6881"] with cache := some [] }
      envRaise "yy" 100 0 = .error .requestRaised := by
  have hdec : publicKeyInit (.str "yy") = .ok [0] := rfl
  simp only [PkarrClient.lookup, hdec, pkarrClientInit]
  rw [lookupLoop.eq_def]
  norm_num [envRaise]

/-- C6.  `signable(t, v)` is exactly the ASCII bytes of
`"3:seqi" ++ decimal(t) ++ "e1:v" ++ decimal(len(v)) ++ ":"` followed by
`v`, and the signing step of `from_packet` signs exactly that byte string
over the encoded packet.  The verification side of the claim fails:
`from_bytes` raises AttributeError (placeholder `PublicKey` without
`verify`) before the signable payload is ever computed, so no payload is
ever verified. -/
theorem c6_signable_payload :
    (∀ (t : Nat) (v : List Nat), SignedPacket.signable t v =
        strBytes "3:seqi" ++ strBytes (toString t) ++ strBytes "e1:v" ++
          strBytes (toString v.length) ++ strBytes ":" ++ v) ∧
    (∀ (t : Nat) (kp : Keypair) (p : Packet), fromPacketSignature t kp p =
        Crypto.modelSign kp.secretKey
          (strBytes "3:seqi" ++ strBytes (toString t) ++ strBytes "e1:v" ++
            strBytes (toString (encodePacket p).length) ++ strBytes ":" ++
              encodePacket p)) ∧
    (∀ (now : Nat) (data : List Nat), 104 ≤ data.length → data.length ≤ 1104 →
        SignedPacket.from_bytes now data = .error .attributeNoVerify) := by
  have hlayout : ∀ (t : Nat) (v : List Nat), SignedPacket.signable t v =
      strBytes "3:seqi" ++ strBytes (toString t) ++ strBytes "e1:v" ++
        strBytes (toString v.length) ++ strBytes ":" ++ v := by
    intro t v
    simp [SignedPacket.signable, strBytes_append]
  refine ⟨hlayout, ?_, ?_⟩
  · intro t kp p
    rw [fromPacketSignature, Keypair.sign, hlayout]
  · intro now data h1 h2
    unfold SignedPacket.from_bytes
    rw [if_neg (by omega), if_neg (by omega)]

/-- Closed instances of `c6_signable_payload`: the layout at timestamp 0 and
the empty byte string, and the AttributeError on an in-range buffer. -/
theorem c6_signable_payload_witness :
    SignedPacket.signable 0 [] =
        strBytes "3:seqi" ++ strBytes (toString 0) ++ strBytes "e1:v" ++
          strBytes (toString ([] : List Nat).length) ++ strBytes ":" ++ [] ∧
      SignedPacket.from_bytes 0 (List.replicate 104 0) = .error .attributeNoVerify :=
  ⟨c6_signable_payload.1 0 [],
   c6_signable_payload.2.2 0 (List.replicate 104 0)
     (by simp only [List.length_replicate]; omega)
     (by simp only [List.length_replicate]; omega)⟩

/-- C7.  `SignedPacket.ttl` returns `min_ttl` on a packet without answers,
otherwise the minimum record TTL clamped into `[min_ttl, max_ttl]`; whenever
`min_ttl ≤ max_ttl` the result lies in that interval, and on records with
TTLs 10, 50 and 7 under (300, 86400) it is 300. -/
theorem c7_ttl_clamped (sp : SignedPacket) (mn mx : Nat) (h : mn ≤ mx) :
    (sp.packet.answers = [] → sp.ttl mn mx = mn) ∧
    (∀ a rest, sp.packet.answers = a :: rest →
        sp.ttl mn mx = Nat.max mn (Nat.min mx (recordsMinTtl a rest))) ∧
    mn ≤ sp.ttl mn mx ∧ sp.ttl mn mx ≤ mx ∧
    spThreeRecords.ttl 300 86400 = 300 := by
  have hconc : spThreeRecords.ttl 300 86400 = 300 := by rfl
  rcases hans : sp.packet.answers with _ | ⟨a, rest⟩ <;>
    refine ⟨?_, ?_, ?_, ?_, hconc⟩ <;> simp [SignedPacket.ttl, hans] <;> omega

/-- Closed instance of `c7_ttl_clamped` at the three-record packet and the
default TTL bounds. -/
theorem c7_ttl_clamped_witness :
    300 ≤ spThreeRecords.ttl 300 86400 ∧ spThreeRecords.ttl 300 86400 ≤ 86400 :=
  ⟨(c7_ttl_clamped spThreeRecords 300 86400 (by omega)).2.2.1,
   (c7_ttl_clamped spThreeRecords 300 86400 (by omega)).2.2.2.1⟩

/-- C8, counterexample.  The textual constructor path performs no length
validation: `PublicKey("yy")` succeeds and stores a 1-byte key, refuting the
claim that every constructed PublicKey has exactly 32 raw bytes. -/
theorem c8_public_key_length_cex :
    publicKeyInit (.str "yy") = .ok [0] ∧ ¬ ([0] : List Nat).length = 32 := by
  exact ⟨rfl, by decide⟩

/-- C8, amended.  Construction from raw bytes succeeds exactly on 32-byte
material and fails with PublicKeyError otherwise, and for a 32-byte key the
textual form `to_z32` converts back to the same raw bytes; only the
string-input path can produce keys of other lengths. -/
theorem c8_public_key_amended :
    (∀ b : List Nat, (publicKeyInit (.bytes b) = .ok b ↔ b.length = 32) ∧
        (b.length ≠ 32 → publicKeyInit (.bytes b) = .error .publicKeyError)) ∧
    (∀ k : List Nat, k.length = 32 → (∀ x ∈ k, x < 256) →
        publicKeyInit (.str (PublicKey.to_z32 k)) = .ok k) := by
  constructor
  · intro b
    constructor
    · constructor
      · intro h
        by_cases hb : b.length = 32
        · exact hb
        · rw [publicKeyInit, if_neg hb] at h
          cases h
      · intro h
        rw [publicKeyInit, if_pos h]
    · intro h
      rw [publicKeyInit, if_neg h]
  · intro k hlen hbytes
    have hrt := z32_round_trip_general k hbytes
    simp [publicKeyInit, PublicKey.to_z32, hrt]

/-- Closed instances of `c8_public_key_amended`: a 32-byte key is accepted
from raw bytes, and survives the raw-to-textual-to-raw conversion. -/
theorem c8_public_key_amended_witness :
    publicKeyInit (.bytes (List.replicate 32 7)) = .ok (List.replicate 32 7) ∧
      publicKeyInit (.str (PublicKey.to_z32 (List.replicate 32 7))) =
        .ok (List.replicate 32 7) :=
  ⟨(c8_public_key_amended.1 (List.replicate 32 7)).1.mpr (by decide),
   c8_public_key_amended.2 (List.replicate 32 7) (by decide) (by decide)⟩

/-- C9.  On every 32-byte input, `z_base_32_decode` inverts
`z_base_32_encode`. -/
theorem c9_z_base_32_round_trip (b : List Nat) (_h32 : b.length = 32)
    (hbytes : ∀ x ∈ b, x < 256) :
    Crypto.z_base_32_decode (Crypto.z_base_32_encode b) = some b :=
  z32_round_trip_general b hbytes

/-- Closed instance of `c9_z_base_32_round_trip` at the 32-byte input
`[0, 1, ..., 31]`. -/
theorem c9_z_base_32_round_trip_witness :
    Crypto.z_base_32_decode (Crypto.z_base_32_encode (List.range 32)) =
      some (List.range 32) :=
  c9_z_base_32_round_trip (List.range 32) (by decide) (by decide)

/-- C10.  Whatever the per-node replies, the pop order and the clock, a
single traversal starting from the deduplicated bootstrap set never queries
any node address twice (the query sequence has no duplicates) and performs
at most `max_attempts` query attempts. -/
theorem c10_no_duplicate_queries (env : LookupEnv) (maxAttempts : Nat)
    (bootstrap : List String) :
    (lookupLoop env maxAttempts bootstrap.dedup [] 0).2.Nodup ∧
      (lookupLoop env maxAttempts bootstrap.dedup [] 0).2.length ≤ maxAttempts :=
  lookupLoop_inv env maxAttempts maxAttempts 0 bootstrap.dedup [] (by omega) (by omega)
    bootstrap.nodup_dedup List.nodup_nil (by simp) rfl
